import Mathlib

/-!
Verification of the MeReader progress-bounded retrieval core.

Shallow embedding of the backend services (`location_service.py`,
`bm25_service.py`, `qdrant.py`, `rag_service.py`, `embedding_service.py`,
`text_extraction_utility.py`).  Machine arithmetic is modelled over `ℤ`/`ℚ`
(Python ints are unbounded; Python floats are modelled by exact rationals).
-/

set_option maxHeartbeats 1000000

namespace MeReader

/-! ## Location service (`location_service.py`) -/

/-- `LocationService.calculate_location_boundary` (location_service.py:40-54).
Python: `if current_location <= 0: return 1`;
`if total_locations and current_location > total_locations: return total_locations`
(truthiness of `total_locations` means `total_locations ≠ 0`); `return current_location`. -/
def calculateLocationBoundary (currentLocation totalLocations : ℤ) : ℤ :=
  if currentLocation ≤ 0 then 1
  else if totalLocations ≠ 0 ∧ totalLocations < currentLocation then totalLocations
  else currentLocation

/-- The boundary function as the claim words it: `1` if `currentLocation ≤ 0`,
`total` if `currentLocation > total` (no nonzero guard on `total`), else
`currentLocation`. -/
def claimedBoundary (currentLocation totalLocations : ℤ) : ℤ :=
  if currentLocation ≤ 0 then 1
  else if totalLocations < currentLocation then totalLocations
  else currentLocation

/-- Python `round` (banker's rounding, half to even), on exact rationals. -/
def pythonRound (q : ℚ) : ℤ :=
  let f := ⌊q⌋
  let r := q - (f : ℚ)
  if r < 1/2 then f
  else if 1/2 < r then f + 1
  else if f % 2 = 0 then f else f + 1

/-- `LocationService.get_percentage_from_location` (location_service.py:81-93):
`0.0` if `total_locations ≤ 0`, else `min(100, max(0, loc/total*100))`. -/
def getPercentageFromLocation (location totalLocations : ℤ) : ℚ :=
  if totalLocations ≤ 0 then 0
  else min 100 (max 0 ((location : ℚ) / (totalLocations : ℚ) * 100))

/-- `LocationService.get_location_from_percentage` (location_service.py:95-109):
`1` if `percentage ≤ 0` or `total ≤ 0`; `total` if `percentage ≥ 100`;
else `max(1, min(total, round(percentage/100 * total)))`. -/
def getLocationFromPercentage (percentage : ℚ) (totalLocations : ℤ) : ℤ :=
  if percentage ≤ 0 ∨ totalLocations ≤ 0 then 1
  else if 100 ≤ percentage then totalLocations
  else max 1 (min totalLocations (pythonRound (percentage / 100 * (totalLocations : ℚ))))

/-- `book.total_locations or 100` (rag_service.py:91): Python `or` yields the
right operand when the left is falsy (`None` or `0`). -/
def pyOrDefault (x : Option ℤ) (d : ℤ) : ℤ :=
  match x with
  | none => d
  | some v => if v = 0 then d else v

/-- The boundary computation as performed by `RAGService.process_query`
(rag_service.py:89-92): the stored (possibly unset) total is defaulted through
`or 100` before `calculate_location_boundary`. -/
def processQueryBoundary (currentLocation : ℤ) (totalLocations : Option ℤ) : ℤ :=
  calculateLocationBoundary currentLocation (pyOrDefault totalLocations 100)

lemma pythonRound_intCast (n : ℤ) : pythonRound (n : ℚ) = n := by
  simp [pythonRound]

/-- Exact form of the percentage/location round trip: with exact rational
arithmetic the composition equals `min total (max 1 loc)`. -/
lemma roundtrip_eq (loc total : ℤ) (htotal : 0 < total) :
    getLocationFromPercentage (getPercentageFromLocation loc total) total =
      min total (max 1 loc) := by
  have htotal' : ¬ total ≤ 0 := not_le.mpr htotal
  have htQ : (0 : ℚ) < (total : ℚ) := by exact_mod_cast htotal
  have h1t : (1 : ℤ) ≤ total := htotal
  rcases le_or_lt loc 0 with hle | hpos
  · -- loc ≤ 0 : percentage is 0, result is 1
    have hx : (loc : ℚ) / (total : ℚ) * 100 ≤ 0 := by
      apply mul_nonpos_of_nonpos_of_nonneg
      · exact div_nonpos_of_nonpos_of_nonneg (by exact_mod_cast hle) htQ.le
      · norm_num
    have hpct : getPercentageFromLocation loc total = 0 := by
      simp only [getPercentageFromLocation, if_neg htotal']
      rw [max_eq_left hx, min_eq_right (by norm_num)]
    rw [hpct]
    have : getLocationFromPercentage 0 total = 1 := by
      simp [getLocationFromPercentage]
    rw [this, max_eq_left (by omega), min_eq_right (by omega)]
  · rcases le_or_lt total loc with hge | hlt
    · -- total ≤ loc : percentage is 100, result is total
      have hx : (100 : ℚ) ≤ (loc : ℚ) / (total : ℚ) * 100 := by
        have h1 : (1 : ℚ) ≤ (loc : ℚ) / (total : ℚ) :=
          (one_le_div htQ).mpr (by exact_mod_cast hge)
        nlinarith
      have hpct : getPercentageFromLocation loc total = 100 := by
        simp only [getPercentageFromLocation, if_neg htotal']
        rw [max_eq_right (le_trans (by norm_num) hx), min_eq_left hx]
      rw [hpct]
      have : getLocationFromPercentage 100 total = total := by
        simp [getLocationFromPercentage, htotal']
      rw [this, max_eq_right (by omega), min_eq_left (by omega)]
    · -- 0 < loc < total : exact inverse
      have hxpos : (0 : ℚ) < (loc : ℚ) / (total : ℚ) * 100 := by
        have : (0 : ℚ) < (loc : ℚ) := by exact_mod_cast hpos
        positivity
      have hxlt : (loc : ℚ) / (total : ℚ) * 100 < 100 := by
        have h1 : (loc : ℚ) / (total : ℚ) < 1 :=
          (div_lt_one htQ).mpr (by exact_mod_cast hlt)
        nlinarith
      have hpct : getPercentageFromLocation loc total =
          (loc : ℚ) / (total : ℚ) * 100 := by
        simp only [getPercentageFromLocation, if_neg htotal']
        rw [max_eq_right hxpos.le, min_eq_right hxlt.le]
      rw [hpct]
      have hback : (loc : ℚ) / (total : ℚ) * 100 / 100 * (total : ℚ) = (loc : ℚ) := by
        field_simp; ring
      have hcond : ¬ ((loc : ℚ) / (total : ℚ) * 100 ≤ 0 ∨ total ≤ 0) := by
        push_neg
        exact ⟨hxpos, htotal⟩
      simp only [getLocationFromPercentage, if_neg hcond, if_neg (not_le.mpr hxlt),
        hback, pythonRound_intCast]
      omega

/-! ## Claim theorems: location service -/

/-- C4 counterexample: at `currentLocation = 5, totalLocations = 0` the code
returns `5` (Python's falsy guard `total_locations and ...` skips the upper
clamp when the total is `0`), whereas the claim's formula (`total` whenever
`currentLocation > total`) yields `0`, and the claim's "total = 0 returns 1"
yields `1`; so the claim is false at this input. -/
theorem calculate_location_boundary_claim_counterexample :
    calculateLocationBoundary 5 0 = 5 ∧
      claimedBoundary 5 0 ≠ calculateLocationBoundary 5 0 ∧
      calculateLocationBoundary 5 0 ≠ 1 := by
  refine ⟨by decide, by decide, by decide⟩

/-- C4 (amended): `calculateLocationBoundary` returns `1` when
`currentLocation ≤ 0`; returns `total` when `total ≠ 0` and
`currentLocation > total`; otherwise returns `currentLocation`.  In particular
for `total = 0` it returns `1` when `currentLocation ≤ 0` and `currentLocation`
otherwise, performing no division. -/
theorem calculate_location_boundary_spec (cur total : ℤ) :
    (cur ≤ 0 → calculateLocationBoundary cur total = 1) ∧
      (0 < cur → total ≠ 0 → total < cur → calculateLocationBoundary cur total = total) ∧
      (0 < cur → (total = 0 ∨ cur ≤ total) → calculateLocationBoundary cur total = cur) ∧
      (calculateLocationBoundary cur 0 = if cur ≤ 0 then 1 else cur) := by
  refine ⟨?_, ?_, ?_, ?_⟩
  · intro h; simp [calculateLocationBoundary, h]
  · intro h h0 hlt
    simp [calculateLocationBoundary, not_le.mpr h, h0, hlt]
  · intro h hcase
    rcases hcase with h0 | hle
    · simp [calculateLocationBoundary, not_le.mpr h, h0]
    · simp [calculateLocationBoundary, not_le.mpr h, not_lt.mpr hle]
  · by_cases h : cur ≤ 0
    · simp [calculateLocationBoundary, h]
    · simp [calculateLocationBoundary, h]

/-- C4 witness: the amended theorem applied at concrete inputs. -/
theorem calculate_location_boundary_spec_witness :
    calculateLocationBoundary (-3) 7 = 1 ∧ calculateLocationBoundary 9 7 = 7 ∧
      calculateLocationBoundary 5 0 = 5 :=
  ⟨(calculate_location_boundary_spec (-3) 7).1 (by decide),
   (calculate_location_boundary_spec 9 7).2.1 (by decide) (by decide) (by decide),
   (calculate_location_boundary_spec 5 0).2.2.1 (by decide) (Or.inl rfl)⟩

/-- C6: for `total > 0` the composition
`locationFromPercentage (percentageFromLocation loc total) total` differs from
`clamp(loc, 1, total)` by at most 1 (with exact rational arithmetic the
difference is in fact 0). -/
theorem location_percentage_roundtrip (loc total : ℤ) (htotal : 0 < total) :
    |getLocationFromPercentage (getPercentageFromLocation loc total) total -
        min total (max 1 loc)| ≤ 1 := by
  rw [roundtrip_eq loc total htotal]
  simp

/-- C6 witness: the round-trip theorem applied at `loc = 3, total = 10`. -/
theorem location_percentage_roundtrip_witness :
    |getLocationFromPercentage (getPercentageFromLocation 3 10) 10 -
        min 10 (max 1 3)| ≤ 1 :=
  location_percentage_roundtrip 3 10 (by decide)

/-- C10: when the stored `total_locations` is unset (`None`) or `0`, the query
pipeline's boundary equals the one computed with total `100`; in particular a
`current_location` above `100` is clamped to `100`. -/
theorem process_query_boundary_default (cur : ℤ) (t : Option ℤ)
    (h : t = none ∨ t = some 0) :
    processQueryBoundary cur t = calculateLocationBoundary cur 100 ∧
      (100 < cur → processQueryBoundary cur t = 100) := by
  have hdef : pyOrDefault t 100 = 100 := by
    rcases h with h | h <;> simp [h, pyOrDefault]
  constructor
  · simp [processQueryBoundary, hdef]
  · intro hcur
    have h0 : ¬ cur ≤ 0 := by omega
    have h100 : (100 : ℤ) ≠ 0 := by norm_num
    simp [processQueryBoundary, hdef, calculateLocationBoundary, h0, hcur, h100]

/-- C10 witness: applied at `current_location = 150` with an unset total. -/
theorem process_query_boundary_default_witness :
    processQueryBoundary 150 none = calculateLocationBoundary 150 100 ∧
      (100 < (150 : ℤ) → processQueryBoundary 150 none = 100) :=
  process_query_boundary_default 150 none (Or.inl rfl)

/-! ## Chunk location assignment (`embedding_service.py`) -/

/-- Python `int()` applied to a float: truncation toward zero. -/
def pythonInt (q : ℚ) : ℤ := if 0 ≤ q then ⌊q⌋ else ⌈q⌉

/-- Chunk location assignment from `EmbeddingService.embed_book_content`
(embedding_service.py:118-121), for the chunk at ordinal `i` of a batch of `n`
chunks: `segment_size = (end - start) / (n + 1)` (float division, modelled
exactly); `location = int(start + segment_size * (i + 1))`;
`location = max(start, min(end, location))`. -/
def chunkLocation (start stop : ℤ) (n i : ℕ) : ℤ :=
  max start (min stop
    (pythonInt ((start : ℚ) + ((stop : ℚ) - (start : ℚ)) / ((n : ℚ) + 1) * ((i : ℚ) + 1))))

/-- The chunk-location formula as the claim words it:
`clamp(start + round((end-start)/(n+1) × (i+1)), start, end)` with rounding to
the nearest integer instead of the code's truncation. -/
def claimedChunkLocation (start stop : ℤ) (n i : ℕ) : ℤ :=
  max start (min stop
    (start + round (((stop : ℚ) - (start : ℚ)) / ((n : ℚ) + 1) * ((i : ℚ) + 1))))

lemma pythonInt_mono {x y : ℚ} (h : x ≤ y) : pythonInt x ≤ pythonInt y := by
  unfold pythonInt
  split_ifs with hx hy hy
  · exact Int.floor_le_floor h
  · exact absurd (le_trans hx h) hy
  · have h1 : ⌈x⌉ ≤ (0 : ℤ) := Int.ceil_le.mpr (by exact_mod_cast le_of_lt (not_le.mp hx))
    have h2 : 0 ≤ ⌊y⌋ := Int.floor_nonneg.mpr hy
    omega
  · exact Int.ceil_le_ceil h

/-- C2 counterexample: chapter range `[1, 3]`, a batch of `n = 2` chunks,
chunk ordinal `i = 0`.  The code computes `int(1 + 2/3) = 1` (truncation),
while the claim's formula gives `1 + round(2/3) = 2` (and `2/3` rounds to `1`
under every common half-rule), so the claim's formula disagrees with the code. -/
theorem chunk_location_claim_counterexample :
    chunkLocation 1 3 2 0 = 1 ∧ claimedChunkLocation 1 3 2 0 = 2 := by
  have hfloor : ⌊(5 : ℚ) / 3⌋ = 1 := Int.floor_eq_iff.mpr ⟨by norm_num, by norm_num⟩
  have hround : round ((2 : ℚ) / 3) = 1 := by
    rw [round_eq]
    have : (2 : ℚ) / 3 + 1 / 2 = 7 / 6 := by norm_num
    rw [this]
    exact Int.floor_eq_iff.mpr ⟨by norm_num, by norm_num⟩
  have hpy : pythonInt ((5 : ℚ) / 3) = 1 := by
    rw [pythonInt, if_pos (by norm_num : (0 : ℚ) ≤ 5 / 3), hfloor]
  constructor
  · simp only [chunkLocation]
    norm_num [hpy]
  · simp only [claimedChunkLocation]
    norm_num [hround]

/-- C2 (amended): with truncation (`int`) in place of rounding, and `n` the
size of the embedding batch (chapters are processed in batches of at most 120
chunks), the assigned locations are monotonically non-decreasing in chunk
order and contained in `[start, end]` whenever `start ≤ end`. -/
theorem chunk_location_monotone_and_bounded (start stop : ℤ) (n : ℕ)
    (h : start ≤ stop) :
    (∀ i j : ℕ, i ≤ j → chunkLocation start stop n i ≤ chunkLocation start stop n j) ∧
      ∀ i : ℕ, start ≤ chunkLocation start stop n i ∧ chunkLocation start stop n i ≤ stop := by
  constructor
  · intro i j hij
    have hd : (0 : ℚ) ≤ ((stop : ℚ) - (start : ℚ)) / ((n : ℚ) + 1) := by
      apply div_nonneg
      · have : (start : ℚ) ≤ (stop : ℚ) := by exact_mod_cast h
        linarith
      · positivity
    have hijQ : ((i : ℚ) + 1) ≤ ((j : ℚ) + 1) := by
      have : (i : ℚ) ≤ (j : ℚ) := by exact_mod_cast hij
      linarith
    have harg : (start : ℚ) + ((stop : ℚ) - (start : ℚ)) / ((n : ℚ) + 1) * ((i : ℚ) + 1) ≤
        (start : ℚ) + ((stop : ℚ) - (start : ℚ)) / ((n : ℚ) + 1) * ((j : ℚ) + 1) := by
      have := mul_le_mul_of_nonneg_left hijQ hd
      linarith
    exact max_le_max le_rfl (min_le_min le_rfl (pythonInt_mono harg))
  · intro i
    refine ⟨le_max_left _ _, max_le h (min_le_left _ _)⟩

/-- C2 witness: the amended theorem applied to the chapter range `[1, 3]` with
a batch of 2 chunks. -/
theorem chunk_location_monotone_and_bounded_witness :
    chunkLocation 1 3 2 0 ≤ chunkLocation 1 3 2 1 ∧
      1 ≤ chunkLocation 1 3 2 0 ∧ chunkLocation 1 3 2 0 ≤ 3 :=
  ⟨(chunk_location_monotone_and_bounded 1 3 2 (by decide)).1 0 1 (by decide),
   (chunk_location_monotone_and_bounded 1 3 2 (by decide)).2 0⟩

/-! ## Vector store model (`qdrant.py`) and ingestion guard -/

/-- The content-type tag carried in each vector payload
(`content_type ∈ {content, summary}`). -/
inductive CType where
  | content
  | summary
deriving DecidableEq

/-- A stored vector point: the payload fields the retrieval pipeline inspects
(`book_id`, `location`, `content_type`).  The embedding vector itself lives in
the external store; similarity against a given query vector is modelled by a
scoring function on points. -/
structure QPoint where
  pid : ℕ
  bookId : ℕ
  location : ℤ
  contentType : CType
deriving DecidableEq

/-- `QdrantManager.has_vectors_for_book` (qdrant.py:37-56): scroll with a
`book_id` must-match filter, limit 1, and return whether any point came back. -/
def hasVectorsForBook (store : List QPoint) (bid : ℕ) : Bool :=
  store.any (fun p => p.bookId = bid)

/-- State touched by the ingestion pipeline: the vector store plus the ids of
books having keyword-index artifacts (the `{book}_bm25.pkl` /
`{book}_metadata.json` pair). -/
structure IngestState where
  store : List QPoint
  kwArtifacts : List ℕ
deriving DecidableEq

/-- `EmbeddingService.embed_book_content` (embedding_service.py:47-49): if the
vector store already has any vector for the book, return `0` immediately
without touching any state.  The remainder of the pipeline (chapter chunking,
embedding, upserts, BM25 build; lines 51-206) is abstracted as `rest`, since
the guard returns before any of it runs; the theorem below holds for every
`rest`. -/
def embedBookContent (bid : ℕ) (rest : IngestState → ℕ × IngestState)
    (st : IngestState) : ℕ × IngestState :=
  if hasVectorsForBook st.store bid then (0, st) else rest st

/-- C5: if the store already holds a vector tagged with the book id, ingestion
is a no-op — it returns `0` embedded chunks and leaves the vector store (hence
the vector count) and the keyword-index artifacts unchanged, whatever the rest
of the pipeline would have done. -/
theorem embed_book_content_noop (bid : ℕ) (rest : IngestState → ℕ × IngestState)
    (st : IngestState) (h : ∃ p ∈ st.store, p.bookId = bid) :
    embedBookContent bid rest st = (0, st) ∧
      (embedBookContent bid rest st).2.store = st.store ∧
      (embedBookContent bid rest st).2.kwArtifacts = st.kwArtifacts := by
  have hb : hasVectorsForBook st.store bid = true := by
    rcases h with ⟨p, hp, hpb⟩
    simp only [hasVectorsForBook, List.any_eq_true]
    exact ⟨p, hp, by simp [hpb]⟩
  refine ⟨?_, ?_, ?_⟩ <;> simp [embedBookContent, hb]

/-- C5 witness: a store holding one vector for book `7`; ingestion with an
arbitrary concrete remainder returns `0` and changes nothing. -/
theorem embed_book_content_noop_witness :
    embedBookContent 7 (fun _ => (99, ⟨[], [42]⟩))
        ⟨[⟨0, 7, 3, CType.content⟩], [7]⟩ =
      (0, ⟨[⟨0, 7, 3, CType.content⟩], [7]⟩) :=
  (embed_book_content_noop 7 (fun _ => (99, ⟨[], [42]⟩))
    ⟨[⟨0, 7, 3, CType.content⟩], [7]⟩
    ⟨⟨0, 7, 3, CType.content⟩, by simp, rfl⟩).1

/-! ## Python `max` of a list -/

/-- Python `max(iterable)` with a default for the empty case (the code only
reaches `max` on non-empty batches, or explicitly writes `... if l else d`). -/
def pyMax (l : List ℚ) (d : ℚ) : ℚ :=
  match l with
  | [] => d
  | a :: rest => rest.foldl max a

lemma foldl_max_init_le (l : List ℚ) (a : ℚ) : a ≤ l.foldl max a := by
  induction l generalizing a with
  | nil => simp
  | cons b t ih =>
    simp only [List.foldl_cons]
    exact le_trans (le_max_left a b) (ih (max a b))

lemma mem_le_foldl_max {l : List ℚ} {x : ℚ} (hx : x ∈ l) (a : ℚ) :
    x ≤ l.foldl max a := by
  induction l generalizing a with
  | nil => cases hx
  | cons b t ih =>
    simp only [List.foldl_cons]
    rcases List.mem_cons.mp hx with rfl | hx'
    · exact le_trans (le_max_right a x) (foldl_max_init_le t (max a x))
    · exact ih hx' (max a b)

lemma foldl_max_mem_or (l : List ℚ) (a : ℚ) :
    l.foldl max a = a ∨ l.foldl max a ∈ l := by
  induction l generalizing a with
  | nil => left; rfl
  | cons b t ih =>
    simp only [List.foldl_cons]
    rcases ih (max a b) with h | h
    · rcases max_choice a b with hm | hm
      · left; rw [h, hm]
      · right; rw [h, hm]; exact List.mem_cons_self b t
    · right; exact List.mem_cons_of_mem b h

lemma le_pyMax {l : List ℚ} {x : ℚ} (hx : x ∈ l) (d : ℚ) : x ≤ pyMax l d := by
  cases l with
  | nil => cases hx
  | cons a t =>
    rcases List.mem_cons.mp hx with rfl | hx'
    · exact foldl_max_init_le t x
    · exact mem_le_foldl_max hx' a

lemma pyMax_mem {l : List ℚ} (h : l ≠ []) (d : ℚ) : pyMax l d ∈ l := by
  cases l with
  | nil => exact absurd rfl h
  | cons a t =>
    rcases foldl_max_mem_or t a with h1 | h1
    · show t.foldl max a ∈ a :: t
      rw [h1]; exact List.mem_cons_self a t
    · exact List.mem_cons_of_mem a h1

/-! ## BM25 keyword search (`bm25_service.py`) -/

/-- Metadata entry aligned with the BM25 corpus by position (written by
`embed_book_content`); the search reads `metadata.get('location', 0)`. -/
structure BMeta where
  chapterId : ℕ
  location : ℤ
deriving DecidableEq

/-- A BM25 search result dict `{"score", "text", **metadata}`.  `raw` records
the pre-rescaling BM25 score (the code overwrites `score` in place during
rescaling; the raw value is kept alongside purely for specification). -/
structure BMResult where
  raw : ℚ
  score : ℚ
  text : List Char
  meta : BMeta
deriving DecidableEq

/-- The pickled `{'index': BM25Okapi, 'chunks': [...]}` data.  The external
`rank_bm25` scorer is carried as the function
`query ↦ index.get_scores(word_tokenize(query.lower()))`, which returns one
score per corpus entry. -/
structure BMIndexData where
  chunks : List (List Char)
  getScores : List Char → List ℚ

/-- One iteration of the result-collection loop in `BM25Service.search`
(bm25_service.py:59-72): skip `i ≥ len(metadata_list)`; skip
`location > location_boundary`; keep strictly positive scores. -/
def bm25Entry (ml : List BMeta) (scores : List ℚ) (chunks : List (List Char))
    (boundary : ℤ) (i : ℕ) : Option BMResult :=
  if i < ml.length then
    if boundary < (ml.getD i ⟨0, 0⟩).location then none
    else if 0 < scores.getD i 0 then
      some ⟨scores.getD i 0, scores.getD i 0, chunks.getD i [], ml.getD i ⟨0, 0⟩⟩
    else none
  else none

/-- The collected results of `BM25Service.search` before sorting. -/
def bm25Filtered (d : BMIndexData) (ml : List BMeta) (q : List Char) (b : ℤ) :
    List BMResult :=
  (List.range (d.getScores q).length).filterMap (bm25Entry ml (d.getScores q) d.chunks b)

/-- `sorted(results, key=score, reverse=True)[:limit]` (bm25_service.py:74):
stable descending sort by score, then truncation. -/
def bm25Top (d : BMIndexData) (ml : List BMeta) (q : List Char) (b : ℤ)
    (limit : ℕ) : List BMResult :=
  ((bm25Filtered d ml q b).mergeSort (fun a b => decide (b.score ≤ a.score))).take limit

/-- Score rescaling (bm25_service.py:76-79): when the batch is non-empty,
divide each score by the batch maximum and multiply by `0.95`. -/
def bm25Rescale (l : List BMResult) : List BMResult :=
  match l with
  | [] => []
  | _ :: _ =>
    l.map (fun r => { r with score := r.score / pyMax (l.map (·.score)) 1 * (95 / 100) })

/-- `BM25Service.search` (bm25_service.py:26-88): absent index data or absent
metadata file yields `[]`; otherwise collect, sort, truncate and rescale. -/
def bm25Search (indexData : Option BMIndexData) (metadata : Option (List BMeta))
    (q : List Char) (b : ℤ) (limit : ℕ) : List BMResult :=
  match indexData with
  | none => []
  | some d =>
    match metadata with
    | none => []
    | some ml => bm25Rescale (bm25Top d ml q b limit)

lemma bm25Entry_some {ml : List BMeta} {scores : List ℚ} {chunks : List (List Char)}
    {b : ℤ} {i : ℕ} {r : BMResult} (h : bm25Entry ml scores chunks b i = some r) :
    0 < r.raw ∧ r.meta.location ≤ b ∧ r.score = r.raw := by
  unfold bm25Entry at h
  split_ifs at h with h1 h2 h3
  · cases h
    exact ⟨h3, not_lt.mp h2, rfl⟩

lemma bm25Filtered_mem {d : BMIndexData} {ml : List BMeta} {q : List Char}
    {b : ℤ} {r : BMResult} (h : r ∈ bm25Filtered d ml q b) :
    0 < r.raw ∧ r.meta.location ≤ b ∧ r.score = r.raw := by
  unfold bm25Filtered at h
  obtain ⟨i, _, hi⟩ := List.mem_filterMap.mp h
  exact bm25Entry_some hi

lemma bm25Top_mem {d : BMIndexData} {ml : List BMeta} {q : List Char} {b : ℤ}
    {limit : ℕ} {r : BMResult} (h : r ∈ bm25Top d ml q b limit) :
    0 < r.raw ∧ r.meta.location ≤ b ∧ r.score = r.raw := by
  unfold bm25Top at h
  exact bm25Filtered_mem (List.mem_mergeSort.mp (List.take_subset _ _ h))

lemma bm25Top_sorted (d : BMIndexData) (ml : List BMeta) (q : List Char) (b : ℤ)
    (limit : ℕ) :
    (bm25Top d ml q b limit).Pairwise (fun r s => s.score ≤ r.score) := by
  unfold bm25Top
  have hs := @List.sorted_mergeSort BMResult
    (fun a b : BMResult => decide (b.score ≤ a.score))
    (fun a b c hab hbc => by
      simp only [decide_eq_true_eq] at hab hbc ⊢
      exact le_trans hbc hab)
    (fun a b => by simpa using le_total b.score a.score)
    (bm25Filtered d ml q b)
  exact (List.Pairwise.sublist (List.take_sublist _ _) hs).imp
    (fun h => of_decide_eq_true h)

lemma bm25Rescale_mem {l : List BMResult} {r : BMResult} (h : r ∈ bm25Rescale l) :
    ∃ s ∈ l, r = { s with score := s.score / pyMax (l.map (·.score)) 1 * (95 / 100) } := by
  cases l with
  | nil => cases h
  | cons a t =>
    obtain ⟨s, hs, hr⟩ := List.mem_map.mp h
    exact ⟨s, hs, hr.symm⟩

lemma bm25Rescale_spec (b : ℤ) (T : List BMResult)
    (hmem : ∀ r ∈ T, 0 < r.raw ∧ r.meta.location ≤ b ∧ r.score = r.raw)
    (hsorted : T.Pairwise (fun r s => s.score ≤ r.score)) :
    (bm25Rescale T).length = T.length ∧
      (bm25Rescale T).Pairwise (fun r s => s.score ≤ r.score) ∧
      ∀ r ∈ bm25Rescale T,
        0 < r.raw ∧ r.meta.location ≤ b ∧
          r.score = r.raw / pyMax ((bm25Rescale T).map (·.raw)) 1 * (95 / 100) ∧
          0 < r.score ∧ r.score ≤ 95 / 100 := by
  cases hTe : T with
  | nil => subst hTe; exact ⟨rfl, List.Pairwise.nil, fun r hr => absurd hr (by simp [bm25Rescale])⟩
  | cons hd tl =>
    subst hTe
    have hTne : (hd :: tl).map (fun r : BMResult => r.score) ≠ [] := by simp
    have hmpos : 0 < pyMax ((hd :: tl).map (fun r : BMResult => r.score)) 1 := by
      obtain ⟨r0, hr0, hs0⟩ := List.mem_map.mp (pyMax_mem hTne 1)
      obtain ⟨h1, _, h3⟩ := hmem r0 hr0
      rw [← hs0]
      rw [h3]
      exact h1
    have hre : bm25Rescale (hd :: tl) =
        (hd :: tl).map (fun r =>
          { r with score := r.score / pyMax ((hd :: tl).map (fun r : BMResult => r.score)) 1 *
              (95 / 100) }) := rfl
    have hmapraw : (bm25Rescale (hd :: tl)).map (fun r : BMResult => r.raw) =
        (hd :: tl).map (fun r : BMResult => r.score) := by
      rw [hre, List.map_map]
      exact List.map_congr_left (fun r hr => ((hmem r hr).2.2).symm)
    refine ⟨by rw [hre, List.length_map], ?_, ?_⟩
    · rw [hre, List.pairwise_map]
      refine hsorted.imp ?_
      intro r s h
      have h1 : s.score / pyMax ((hd :: tl).map (fun r : BMResult => r.score)) 1 ≤
          r.score / pyMax ((hd :: tl).map (fun r : BMResult => r.score)) 1 := by gcongr
      exact mul_le_mul_of_nonneg_right h1 (by norm_num)
    · intro r' hr'
      rw [hre] at hr'
      obtain ⟨s, hsT, rfl⟩ := List.mem_map.mp hr'
      obtain ⟨hraw, hloc, hsc⟩ := hmem s hsT
      have hsle : s.score ≤ pyMax ((hd :: tl).map (fun r : BMResult => r.score)) 1 :=
        le_pyMax (List.mem_map_of_mem _ hsT) 1
      refine ⟨hraw, hloc, ?_, ?_, ?_⟩
      · show s.score / _ * (95 / 100) = s.raw / _ * (95 / 100)
        rw [hmapraw, hsc]
      · exact mul_pos (div_pos (hsc ▸ hraw) hmpos) (by norm_num)
      · have h1 : s.score / pyMax ((hd :: tl).map (fun r : BMResult => r.score)) 1 ≤ 1 :=
          (div_le_one hmpos).mpr hsle
        calc s.score / pyMax ((hd :: tl).map (fun r : BMResult => r.score)) 1 * (95 / 100)
            ≤ 1 * (95 / 100) := mul_le_mul_of_nonneg_right h1 (by norm_num)
          _ = 95 / 100 := one_mul _

/-- C3: the keyword search returns only entries with strictly positive raw
score and location ≤ boundary, at most `limit` of them, sorted by score
descending, each score rescaled to the raw score divided by the returned
batch's maximum raw score times `0.95` (so all final scores lie in
`(0, 0.95]`); an absent index or absent metadata file yields the empty list. -/
theorem bm25_search_spec (d : BMIndexData) (ml : List BMeta) (q : List Char)
    (b : ℤ) (limit : ℕ) :
    bm25Search none (some ml) q b limit = [] ∧
      bm25Search (some d) none q b limit = [] ∧
      (bm25Search (some d) (some ml) q b limit).length ≤ limit ∧
      (bm25Search (some d) (some ml) q b limit).Pairwise (fun r s => s.score ≤ r.score) ∧
      ∀ r ∈ bm25Search (some d) (some ml) q b limit,
        0 < r.raw ∧ r.meta.location ≤ b ∧
          r.score =
            r.raw / pyMax ((bm25Search (some d) (some ml) q b limit).map (·.raw)) 1 *
              (95 / 100) ∧
          0 < r.score ∧ r.score ≤ 95 / 100 := by
  have hlenT : (bm25Top d ml q b limit).length ≤ limit := by
    unfold bm25Top
    rw [List.length_take]
    exact min_le_left _ _
  obtain ⟨hlen, hsorted, hmem⟩ :=
    bm25Rescale_spec b (bm25Top d ml q b limit)
      (fun r hr => bm25Top_mem hr) (bm25Top_sorted d ml q b limit)
  exact ⟨rfl, rfl, le_trans (le_of_eq hlen) hlenT, hsorted, hmem⟩

/-! ## Vector search (`qdrant.py`) -/

/-- A record returned by `search_vectors`: `{"id", "score", **payload}`. -/
structure VResult where
  score : ℚ
  bookId : ℕ
  location : ℤ
  contentType : CType
deriving DecidableEq

/-- The must-conditions built by `QdrantManager.search_vectors`
(qdrant.py:110-125): `book_id` match, `location ≤ boundary` range when a
boundary is passed, and a `content_type` match when filter metadata is passed
(the only metadata filter used by the query pipeline). -/
def matchesFilter (p : QPoint) (bid : ℕ) (locB : Option ℤ) (fm : Option CType) : Bool :=
  decide (p.bookId = bid) &&
    (match locB with
     | some b => decide (p.location ≤ b)
     | none => true) &&
    (match fm with
     | some c => decide (p.contentType = c)
     | none => true)

/-- Modelled from the spec: the external vector-store search capability (spec
§6, `search(vector, filter{bookId, locationLte?, metadataEquals?}, limit,
scoreThreshold) -> [(id, score, payload)]`) is not part of the repository; it
returns the stored points satisfying every must-condition whose similarity
score reaches the threshold, the top `limit` by score.  `sim p` is the cosine
similarity of stored point `p` against the query vector. -/
def clientSearch (store : List QPoint) (sim : QPoint → ℚ) (flt : QPoint → Bool)
    (limit : ℕ) (thr : ℚ) : List QPoint :=
  ((store.filter (fun p => flt p && decide (thr ≤ sim p))).mergeSort
    (fun a b => decide (sim b ≤ sim a))).take limit

/-- `QdrantManager.search_vectors` (qdrant.py:97-148): build the must-filter,
search the external store, and return `{score, **payload}` records. -/
def searchVectors (store : List QPoint) (sim : QPoint → ℚ) (bid : ℕ)
    (limit : ℕ) (thr : ℚ) (locB : Option ℤ) (fm : Option CType) : List VResult :=
  (clientSearch store sim (fun p => matchesFilter p bid locB fm) limit thr).map
    (fun p => ⟨sim p, p.bookId, p.location, p.contentType⟩)

lemma searchVectors_location_le {store : List QPoint} {sim : QPoint → ℚ}
    {bid limit : ℕ} {thr : ℚ} {b : ℤ} {fm : Option CType} {r : VResult}
    (h : r ∈ searchVectors store sim bid limit thr (some b) fm) :
    r.location ≤ b := by
  unfold searchVectors clientSearch at h
  obtain ⟨p, hp, hr⟩ := List.mem_map.mp h
  have hp2 := List.mem_filter.mp (List.mem_mergeSort.mp (List.take_subset _ _ hp))
  have hloc : p.location ≤ b := by
    have h2 := hp2.2
    simp only [matchesFilter, Bool.and_eq_true, decide_eq_true_eq] at h2
    exact h2.1.1.2
  rw [← hr]
  exact hloc

/-! ## Claim theorem: boundary enforcement (C1) -/

/-- C1: for a boundary `b`, no result of any of the four retrieval strategies
has location above `b`: the keyword search (any index/metadata state, any
query, any limit) only returns entries with `location ≤ b`, and any vector
search invoked with the `location ≤ b` range filter — as `process_query` does
for the content, summary and expanded-query searches (rag_service.py:123-155)
— only returns payloads with `location ≤ b`. -/
theorem boundary_enforced_all_strategies (b : ℤ) :
    (∀ (idx : Option BMIndexData) (md : Option (List BMeta)) (q : List Char)
       (limit : ℕ), ∀ r ∈ bm25Search idx md q b limit, r.meta.location ≤ b) ∧
      ∀ (store : List QPoint) (sim : QPoint → ℚ) (bid limit : ℕ) (thr : ℚ)
        (fm : Option CType), ∀ r ∈ searchVectors store sim bid limit thr (some b) fm,
        r.location ≤ b := by
  constructor
  · rintro (_ | d) (_ | ml) q limit r hr
    · cases hr
    · cases hr
    · cases hr
    · obtain ⟨s, hsT, rfl⟩ := bm25Rescale_mem hr
      exact (bm25Top_mem hsT).2.1
  · intro store sim bid limit thr fm r hr
    exact searchVectors_location_le hr

lemma clientSearch_singleton {p : QPoint} {sim : QPoint → ℚ} {flt : QPoint → Bool}
    {limit : ℕ} {thr : ℚ} (hf : flt p = true) (ht : thr ≤ sim p) (hl : limit ≠ 0) :
    clientSearch [p] sim flt limit thr = [p] := by
  unfold clientSearch
  have hfl : List.filter (fun q => flt q && decide (thr ≤ sim q)) [p] = [p] := by
    simp [List.filter_cons, hf, ht]
  rw [hfl, List.mergeSort_singleton]
  cases limit with
  | zero => exact absurd rfl hl
  | succ n => simp

/-- C3 witness: a one-entry corpus whose entry scores `2` at location `3` with
boundary `5`; the search returns it rescaled to `0.95`, and the spec theorem
applies to it. -/
theorem bm25_search_spec_witness :
    (⟨2, 19/20, ['a'], ⟨0, 3⟩⟩ : BMResult) ∈
        bm25Search (some ⟨[['a']], fun _ => [(2 : ℚ)]⟩) (some [⟨0, 3⟩]) [] 5 10 ∧
      (0 < (⟨2, 19/20, ['a'], ⟨0, 3⟩⟩ : BMResult).raw ∧
        (⟨2, 19/20, ['a'], ⟨0, 3⟩⟩ : BMResult).meta.location ≤ 5 ∧
        (⟨2, 19/20, ['a'], ⟨0, 3⟩⟩ : BMResult).score =
          (⟨2, 19/20, ['a'], ⟨0, 3⟩⟩ : BMResult).raw /
            pyMax ((bm25Search (some ⟨[['a']], fun _ => [(2 : ℚ)]⟩)
                (some [⟨0, 3⟩]) [] 5 10).map (·.raw)) 1 * (95 / 100) ∧
        0 < (⟨2, 19/20, ['a'], ⟨0, 3⟩⟩ : BMResult).score ∧
        (⟨2, 19/20, ['a'], ⟨0, 3⟩⟩ : BMResult).score ≤ 95 / 100) := by
  have hf : bm25Filtered ⟨[['a']], fun _ => [(2 : ℚ)]⟩ [⟨0, 3⟩] [] 5 =
      [⟨2, 2, ['a'], ⟨0, 3⟩⟩] := by decide
  have htop : bm25Top ⟨[['a']], fun _ => [(2 : ℚ)]⟩ [⟨0, 3⟩] [] 5 10 =
      [⟨2, 2, ['a'], ⟨0, 3⟩⟩] := by
    unfold bm25Top
    rw [hf, List.mergeSort_singleton]
    decide
  have hout : bm25Search (some ⟨[['a']], fun _ => [(2 : ℚ)]⟩) (some [⟨0, 3⟩]) [] 5 10 =
      [⟨2, 19/20, ['a'], ⟨0, 3⟩⟩] := by
    show bm25Rescale (bm25Top ⟨[['a']], fun _ => [(2 : ℚ)]⟩ [⟨0, 3⟩] [] 5 10) = _
    rw [htop]
    simp only [bm25Rescale, pyMax, List.map_cons, List.map_nil, List.foldl_nil]
    norm_num
  have hmem : (⟨2, 19/20, ['a'], ⟨0, 3⟩⟩ : BMResult) ∈
      bm25Search (some ⟨[['a']], fun _ => [(2 : ℚ)]⟩) (some [⟨0, 3⟩]) [] 5 10 := by
    rw [hout]
    exact List.mem_singleton_self _
  exact ⟨hmem, (bm25_search_spec ⟨[['a']], fun _ => [(2 : ℚ)]⟩ [⟨0, 3⟩] [] 5 10).2.2.2.2 _ hmem⟩

/-- C1 witness: the boundary theorem applied to a keyword result at location 3
and a vector result at location 3, both under boundary 5. -/
theorem boundary_enforced_all_strategies_witness :
    (⟨2, 19/20, ['a'], ⟨0, 3⟩⟩ : BMResult).meta.location ≤ 5 ∧
      (⟨1, 7, 3, CType.content⟩ : VResult).location ≤ 5 := by
  have hf : bm25Filtered ⟨[['a']], fun _ => [(2 : ℚ)]⟩ [⟨0, 3⟩] [] 5 =
      [⟨2, 2, ['a'], ⟨0, 3⟩⟩] := by decide
  have htop : bm25Top ⟨[['a']], fun _ => [(2 : ℚ)]⟩ [⟨0, 3⟩] [] 5 10 =
      [⟨2, 2, ['a'], ⟨0, 3⟩⟩] := by
    unfold bm25Top
    rw [hf, List.mergeSort_singleton]
    decide
  have hout : bm25Search (some ⟨[['a']], fun _ => [(2 : ℚ)]⟩) (some [⟨0, 3⟩]) [] 5 10 =
      [⟨2, 19/20, ['a'], ⟨0, 3⟩⟩] := by
    show bm25Rescale (bm25Top ⟨[['a']], fun _ => [(2 : ℚ)]⟩ [⟨0, 3⟩] [] 5 10) = _
    rw [htop]
    simp only [bm25Rescale, pyMax, List.map_cons, List.map_nil, List.foldl_nil]
    norm_num
  have hmem1 : (⟨2, 19/20, ['a'], ⟨0, 3⟩⟩ : BMResult) ∈
      bm25Search (some ⟨[['a']], fun _ => [(2 : ℚ)]⟩) (some [⟨0, 3⟩]) [] 5 10 := by
    rw [hout]
    exact List.mem_singleton_self _
  have hcs : clientSearch [⟨0, 7, 3, CType.content⟩] (fun _ => 1)
      (fun p => matchesFilter p 7 (some 5) none) 5 (1/2) = [⟨0, 7, 3, CType.content⟩] :=
    clientSearch_singleton (by decide) (by norm_num) (by norm_num)
  have hmem2 : (⟨1, 7, 3, CType.content⟩ : VResult) ∈
      searchVectors [⟨0, 7, 3, CType.content⟩] (fun _ => 1) 7 5 (1/2) (some 5) none := by
    unfold searchVectors
    rw [hcs]
    exact List.mem_singleton_self _
  exact ⟨(boundary_enforced_all_strategies 5).1 _ _ _ _ _ hmem1,
    (boundary_enforced_all_strategies 5).2 _ _ _ _ _ _ _ hmem2⟩

/-! ## Result fusion normalization (`rag_service.py:170-193`) -/

/-- `settings.BM25_WEIGHT` (config.py:16). -/
def BM25_WEIGHT : ℚ := 4 / 10

/-- The per-group normalization body:
`(r["score"] / max_score if max_score > 0 else 0) * weight`, with `max_score`
the group's own maximum (computed on a non-empty group). -/
def normalizeGroup (w : ℚ) (scores : List ℚ) : List ℚ :=
  scores.map (fun s => (if 0 < pyMax scores 1 then s / pyMax scores 1 else 0) * w)

/-- The fusion normalization step of `RAGService.process_query`
(rag_service.py:170-193), acting on the four strategy groups' score lists:
`if summary_results:` normalize with weight `0.4`;
`if vector_results and bm25_results:` normalize vector with `1 - BM25_WEIGHT`
and keyword with `BM25_WEIGHT` (only when BOTH are non-empty);
`if expanded_results:` normalize with weight `0.7`. -/
def fuseNormalize (summary vector bm25 expanded : List ℚ) :
    List ℚ × List ℚ × List ℚ × List ℚ :=
  let summary' := if summary ≠ [] then normalizeGroup (4 / 10) summary else summary
  let vb := if vector ≠ [] ∧ bm25 ≠ [] then
      (normalizeGroup (1 - BM25_WEIGHT) vector, normalizeGroup BM25_WEIGHT bm25)
    else (vector, bm25)
  let expanded' := if expanded ≠ [] then normalizeGroup (7 / 10) expanded else expanded
  (summary', vb.1, vb.2, expanded')

/-- C7 counterexample: with one content-vector result of score `4/5` and no
keyword results, the code leaves the vector score at `4/5` (the
`if vector_results and bm25_results:` guard fails), whereas the claim's
normalization (divide by the group max, multiply by `1 − keywordWeight`)
yields `3/5`; so normalization is NOT independent of the other group. -/
theorem fuse_normalize_claim_counterexample :
    (fuseNormalize [] [4 / 5] [] []).2.1 = [4 / 5] ∧
      ¬ ((4 : ℚ) / 5 = 4 / 5 / pyMax [4 / 5] 1 * (1 - BM25_WEIGHT)) := by
  constructor
  · simp [fuseNormalize]
  · simp only [pyMax, List.foldl_nil, BM25_WEIGHT]
    norm_num

/-- C7 (amended): the summary and expanded-query groups are each normalized by
their own maximum and weighted `0.4` / `0.7` irrespective of the other groups;
the content-vector and keyword groups are normalized (weights
`1 − keywordWeight` and `keywordWeight = 0.4`) only when both of those two
groups are non-empty, and are both left unchanged when either is empty. -/
theorem fuse_normalize_spec (summary vector bm25 expanded : List ℚ) :
    (fuseNormalize summary vector bm25 expanded).1 = normalizeGroup (4 / 10) summary ∧
      (fuseNormalize summary vector bm25 expanded).2.2.2 = normalizeGroup (7 / 10) expanded ∧
      (vector ≠ [] → bm25 ≠ [] →
        (fuseNormalize summary vector bm25 expanded).2.1 =
            normalizeGroup (1 - BM25_WEIGHT) vector ∧
          (fuseNormalize summary vector bm25 expanded).2.2.1 =
            normalizeGroup BM25_WEIGHT bm25) ∧
      (bm25 = [] →
        (fuseNormalize summary vector bm25 expanded).2.1 = vector ∧
          (fuseNormalize summary vector bm25 expanded).2.2.1 = bm25) ∧
      (vector = [] →
        (fuseNormalize summary vector bm25 expanded).2.1 = vector ∧
          (fuseNormalize summary vector bm25 expanded).2.2.1 = bm25) := by
  refine ⟨?_, ?_, ?_, ?_, ?_⟩
  · by_cases h : summary = [] <;> simp [fuseNormalize, h, normalizeGroup]
  · by_cases h : expanded = [] <;> simp [fuseNormalize, h, normalizeGroup]
  · intro hv hb
    constructor <;> simp [fuseNormalize, hv, hb]
  · intro hb
    subst hb
    constructor <;> simp [fuseNormalize]
  · intro hv
    subst hv
    constructor <;> simp [fuseNormalize]

/-- C7 witness: the amended theorem applied with both pair groups non-empty
(`vector = [2], bm25 = [1]`) and with an empty keyword group
(`vector = [3], bm25 = []`). -/
theorem fuse_normalize_spec_witness :
    ((fuseNormalize [] [2] [1] []).2.1 = normalizeGroup (1 - BM25_WEIGHT) [2] ∧
        (fuseNormalize [] [2] [1] []).2.2.1 = normalizeGroup BM25_WEIGHT [1]) ∧
      ((fuseNormalize [] [3] [] []).2.1 = [3] ∧
        (fuseNormalize [] [3] [] []).2.2.1 = []) :=
  ⟨(fuse_normalize_spec [] [2] [1] []).2.2.1 (by decide) (by decide),
   (fuse_normalize_spec [] [3] [] []).2.2.2.1 rfl⟩

/-! ## LLM reranking (`rag_service.py:385-455`) -/

/-- A fused search-result dict as seen by the reranker: `score` is the
normalized score, `rerank` the `"rerank_score"` key (absent before
reranking; the sort key reads it with default `0`). -/
structure RResult where
  rid : ℕ
  score : ℚ
  rerank : Option ℕ
deriving DecidableEq

/-- The rankings dict built from the regex matches of `[index]: [score]` lines
(rag_service.py:423-434): for each match `(i, s)` (both decimal numerals),
keep `index = i - 1` when `0 ≤ index < len(candidates)` and clamp the score
into `[1, 10]`; a later match for the same index overwrites an earlier one
(dict assignment — represented by prepending, so the most recent binding is
found first). -/
def rankingsOf (ms : List (ℕ × ℕ)) (len : ℕ) : List (ℕ × ℕ) :=
  ms.foldl (fun acc m =>
    if 1 ≤ m.1 ∧ m.1 - 1 < len then (m.1 - 1, min 10 (max 1 m.2)) :: acc else acc) []

/-- `rankings[i] if i in rankings else 1` (rag_service.py:438-440). -/
def findRank (rankings : List (ℕ × ℕ)) (i : ℕ) : Option ℕ :=
  (rankings.find? (fun kv => kv.1 == i)).map (fun kv => kv.2)

/-- Assignment of `rerank_score` to the top candidates: parsed indices get
their rating, unparsed ones default to `1`. -/
def assignRerank (rankings : List (ℕ × ℕ)) (l : List RResult) : List RResult :=
  l.enum.map (fun p => { p.2 with rerank := some ((findRank rankings p.1).getD 1) })

/-- The descending lexicographic order on
`(x.get("rerank_score", 0), x.get("score", 0))` used by
`sorted(..., reverse=True)` (rag_service.py:442-446): `a` may precede `b` iff
`key a ≥ key b`. -/
def rerankKeyGe (a b : RResult) : Bool :=
  decide (b.rerank.getD 0 < a.rerank.getD 0) ||
    (a.rerank.getD 0 == b.rerank.getD 0 && decide (b.score ≤ a.score))

/-- `RAGService._rerank_results` (rag_service.py:385-455), parameterized by
the regex matches extracted from the LLM judge response: fewer than 5
candidates (the judge is not consulted) or an empty rankings dict leave the
input unchanged; otherwise the top 15 get rerank scores (default 1), are
stably sorted descending by `(rerank_score, score)`, and the overflow beyond
15 is appended unchanged. -/
def rerankResults (results : List RResult) (ms : List (ℕ × ℕ)) : List RResult :=
  if results.length < 5 then results
  else if rankingsOf ms (results.take 15).length = [] then results
  else
    (assignRerank (rankingsOf ms (results.take 15).length)
        (results.take 15)).mergeSort rerankKeyGe ++ results.drop 15

lemma rerankKeyGe_trans (a b c : RResult) (hab : rerankKeyGe a b)
    (hbc : rerankKeyGe b c) : rerankKeyGe a c := by
  simp only [rerankKeyGe, Bool.or_eq_true, Bool.and_eq_true, decide_eq_true_eq,
    beq_iff_eq] at hab hbc ⊢
  rcases hab with h1 | ⟨h1, h1s⟩ <;> rcases hbc with h2 | ⟨h2, h2s⟩
  · exact Or.inl (lt_trans h2 h1)
  · exact Or.inl (by omega)
  · exact Or.inl (by omega)
  · exact Or.inr ⟨by omega, le_trans h2s h1s⟩

lemma rerankKeyGe_total (a b : RResult) : rerankKeyGe a b || rerankKeyGe b a := by
  simp only [rerankKeyGe, Bool.or_eq_true, Bool.and_eq_true, decide_eq_true_eq,
    beq_iff_eq]
  rcases lt_trichotomy (a.rerank.getD 0) (b.rerank.getD 0) with h | h | h
  · exact Or.inr (Or.inl h)
  · rcases le_total a.score b.score with hs | hs
    · exact Or.inr (Or.inr ⟨h.symm, hs⟩)
    · exact Or.inl (Or.inr ⟨h, hs⟩)
  · exact Or.inl (Or.inl h)

/-- C8: if the tolerant parse of the judge response yields zero usable
ratings, the reranker returns the candidate list unchanged (it is a total
function — the query never fails); if at least one rating parses (and the
judge was consulted, i.e. there are at least 5 candidates), the output is a
permutation of the top-15 candidates with rerank scores assigned (unparsed
indices defaulting to 1), sorted descending by `(rerank_score, score)`,
followed by the overflow candidates beyond the top 15, unchanged. -/
theorem rerank_results_spec (results : List RResult) (ms : List (ℕ × ℕ)) :
    (rankingsOf ms (results.take 15).length = [] →
      rerankResults results ms = results) ∧
      (5 ≤ results.length → rankingsOf ms (results.take 15).length ≠ [] →
        (rerankResults results ms).drop (min 15 results.length) =
            results.drop 15 ∧
          List.Perm ((rerankResults results ms).take (min 15 results.length))
            (assignRerank (rankingsOf ms (results.take 15).length)
              (results.take 15)) ∧
          ((rerankResults results ms).take (min 15 results.length)).Pairwise
            (fun a b => rerankKeyGe a b = true)) := by
  constructor
  · intro h0
    unfold rerankResults
    by_cases h5 : results.length < 5
    · rw [if_pos h5]
    · rw [if_neg h5, if_pos h0]
  · intro h5 hne
    have h5' : ¬ results.length < 5 := not_lt.mpr h5
    have hout : rerankResults results ms =
        (assignRerank (rankingsOf ms (results.take 15).length)
            (results.take 15)).mergeSort rerankKeyGe ++ results.drop 15 := by
      unfold rerankResults
      rw [if_neg h5', if_neg hne]
    have hlenM : ((assignRerank (rankingsOf ms (results.take 15).length)
        (results.take 15)).mergeSort rerankKeyGe).length = min 15 results.length := by
      rw [List.length_mergeSort]
      unfold assignRerank
      rw [List.length_map, List.enum_length, List.length_take]
    refine ⟨?_, ?_, ?_⟩
    · rw [hout, ← hlenM, List.drop_left]
    · rw [hout, ← hlenM, List.take_left]
      exact List.mergeSort_perm _ _
    · rw [hout, ← hlenM, List.take_left]
      exact List.sorted_mergeSort rerankKeyGe_trans rerankKeyGe_total _

/-- C8 witness: five candidates; a match set hitting only an out-of-range
index leaves the order unchanged, and a usable match set satisfies the
reranked-shape conclusion. -/
theorem rerank_results_spec_witness :
    (rerankResults
        [⟨0, 9, none⟩, ⟨1, 4, none⟩, ⟨2, 3, none⟩, ⟨3, 2, none⟩, ⟨4, 1, none⟩]
        [(99, 5)] =
      [⟨0, 9, none⟩, ⟨1, 4, none⟩, ⟨2, 3, none⟩, ⟨3, 2, none⟩, ⟨4, 1, none⟩]) ∧
      ((rerankResults
          [⟨0, 9, none⟩, ⟨1, 4, none⟩, ⟨2, 3, none⟩, ⟨3, 2, none⟩, ⟨4, 1, none⟩]
          [(1, 10)]).drop
        (min 15
          ([⟨0, 9, none⟩, ⟨1, 4, none⟩, ⟨2, 3, none⟩, ⟨3, 2, none⟩,
            (⟨4, 1, none⟩ : RResult)].length)) =
        [⟨0, 9, none⟩, ⟨1, 4, none⟩, ⟨2, 3, none⟩, ⟨3, 2, none⟩,
          (⟨4, 1, none⟩ : RResult)].drop 15) :=
  ⟨(rerank_results_spec
      [⟨0, 9, none⟩, ⟨1, 4, none⟩, ⟨2, 3, none⟩, ⟨3, 2, none⟩, ⟨4, 1, none⟩]
      [(99, 5)]).1 (by decide),
   ((rerank_results_spec
      [⟨0, 9, none⟩, ⟨1, 4, none⟩, ⟨2, 3, none⟩, ⟨3, 2, none⟩, ⟨4, 1, none⟩]
      [(1, 10)]).2 (by decide) (by decide)).1⟩

/-! ## Streaming chunker (`text_extraction_utility.py:60-117`, HTML branch) -/

/-- Python `str.strip()`: remove leading and trailing whitespace. -/
def pyStrip (s : List Char) : List Char :=
  ((s.dropWhile Char.isWhitespace).reverse.dropWhile Char.isWhitespace).reverse

/-- Python `hay.rfind(needle, start, stop)`: the largest index `i` with
`start ≤ i`, `i + len(needle) ≤ min(stop, len(hay))` and `needle` occurring in
`hay` at `i`; `-1` when there is none. -/
def pyRfind (hay needle : List Char) (start stop : ℕ) : ℤ :=
  (((List.range (min stop hay.length + 1)).filter (fun i =>
      decide (start ≤ i) && decide (i + needle.length ≤ min stop hay.length) &&
        needle.isPrefixOf (hay.drop i))).map (fun i => (i : ℤ))).foldl max (-1)

/-- The breakpoint choice of one window iteration
(text_extraction_utility.py:74-80): start from `min(chunk_size, len(buffer))`;
prefer a paragraph break `\n\n` found in `[cs//2, cs+50)` strictly past
`cs//2` (break position + 2), else a sentence break `". "` found in
`[cs//2, cs+30)` strictly past `cs//2` (position + 2), else the hard cut. -/
def chooseChunkEnd (buffer : List Char) (cs : ℕ) : ℕ :=
  let pb := pyRfind buffer [Char.ofNat 10, Char.ofNat 10] (cs / 2) (cs + 50)
  if pb ≠ -1 ∧ ((cs / 2 : ℕ) : ℤ) < pb then (pb + 2).toNat
  else
    let sb := pyRfind buffer ['.', ' '] (cs / 2) (cs + 30)
    if sb ≠ -1 ∧ ((cs / 2 : ℕ) : ℤ) < sb then (sb + 2).toNat
    else min cs buffer.length

/-- The HTML-branch window loop of `chunk_text_streamed`
(text_extraction_utility.py:70-89), with an explicit fuel argument standing
for the number of remaining iterations: `none` means the fuel ran out (the
loop did not finish within that many iterations).  Per iteration:
`buffer = text[pos : pos + cs*3]`; choose the chunk end; emit the stripped
chunk when non-empty and at least `min_chunk_size` long; advance `pos` by
`max(chunk_end - overlap//2, cs//2)`. -/
def chunkLoop (text : List Char) (cs ov mcs : ℕ) : ℕ → ℕ → Option (List (List Char))
  | 0, _ => none
  | fuel + 1, pos =>
    if pos < text.length then
      let buffer := (text.drop pos).take (cs * 3)
      let ce := chooseChunkEnd buffer cs
      let chunk := pyStrip (buffer.take ce)
      let adv := (max ((ce : ℤ) - ((ov / 2 : ℕ) : ℤ)) (((cs / 2 : ℕ) : ℤ))).toNat
      match chunkLoop text cs ov mcs fuel (pos + adv) with
      | none => none
      | some rest =>
          some (if chunk ≠ [] ∧ mcs ≤ chunk.length then chunk :: rest else rest)
    else some []

/-- The chunker terminates on `text` with the given configuration: some finite
iteration budget suffices for the window loop to reach the end of the text. -/
def chunkTerminates (text : List Char) (cs ov mcs : ℕ) : Prop :=
  ∃ fuel chunks, chunkLoop text cs ov mcs fuel 0 = some chunks

/-- C9 counterexample: with target chunk size 1, overlap 4, minimum chunk
size 2 on the two-character text `"ab"`, every iteration computes
`chunk_end = 1` and `advance = max(1 - 2, 0) = 0`, so the window position
never moves and the loop never terminates, contradicting the claim's "for
every configuration ... the advance is positive". -/
theorem chunk_loop_claim_counterexample :
    ¬ chunkTerminates [Char.ofNat 97, Char.ofNat 98] 1 4 2 := by
  have hnone : ∀ fuel, chunkLoop [Char.ofNat 97, Char.ofNat 98] 1 4 2 fuel 0 = none := by
    intro fuel
    induction fuel with
    | zero => rfl
    | succ n ih =>
      have hstep : chunkLoop [Char.ofNat 97, Char.ofNat 98] 1 4 2 (n + 1) 0 =
          match chunkLoop [Char.ofNat 97, Char.ofNat 98] 1 4 2 n 0 with
          | none => none
          | some rest => some rest := rfl
      rw [hstep, ih]
  rintro ⟨fuel, chunks, h⟩
  rw [hnone fuel] at h
  cases h

/-- C9 (amended): for every finite text, overlap and minimum chunk size, and
every target chunk size of at least 2, the window loop terminates within
`len(text) + 1` iterations: each iteration advances the position by
`max(chunkEnd − overlap/2, targetSize/2) ≥ targetSize/2 ≥ 1`.  (For
`targetSize ≤ 1` the advance can be 0 and the loop need not terminate, as the
counterexample shows.) -/
theorem chunk_loop_terminates (text : List Char) (cs ov mcs : ℕ) (hcs : 2 ≤ cs) :
    chunkTerminates text cs ov mcs := by
  have key : ∀ fuel pos, text.length - pos < fuel →
      (chunkLoop text cs ov mcs fuel pos).isSome = true := by
    intro fuel
    induction fuel with
    | zero => intro pos h; omega
    | succ n ih =>
      intro pos h
      by_cases hp : pos < text.length
      · simp only [chunkLoop]
        rw [if_pos hp]
        set ce := chooseChunkEnd ((text.drop pos).take (cs * 3)) cs with hce
        have hdiv : 1 ≤ cs / 2 := by omega
        have h1 : ((cs / 2 : ℕ) : ℤ) ≤
            max ((ce : ℤ) - ((ov / 2 : ℕ) : ℤ)) (((cs / 2 : ℕ) : ℤ)) :=
          le_max_right _ _
        have hadv : 1 ≤ (max ((ce : ℤ) - ((ov / 2 : ℕ) : ℤ)) (((cs / 2 : ℕ) : ℤ))).toNat := by
          omega
        have hrec := ih
          (pos + (max ((ce : ℤ) - ((ov / 2 : ℕ) : ℤ)) (((cs / 2 : ℕ) : ℤ))).toNat)
          (by omega)
        obtain ⟨rest, hrest⟩ := Option.isSome_iff_exists.mp hrec
        rw [hrest]
        rfl
      · simp only [chunkLoop]
        rw [if_neg hp]
        rfl
  obtain ⟨chunks, h⟩ := Option.isSome_iff_exists.mp
    (key (text.length + 1) 0 (by omega))
  exact ⟨text.length + 1, chunks, h⟩

/-- C9 witness: the termination theorem applied to the text `"hi"` with chunk
size 4. -/
theorem chunk_loop_terminates_witness :
    chunkTerminates [Char.ofNat 104, Char.ofNat 105] 4 0 1 :=
  chunk_loop_terminates [Char.ofNat 104, Char.ofNat 105] 4 0 1 (by decide)

end MeReader
